import Mathlib

/-
Verification of the vesting account core of the repository.

The repository ships the test file
x/auth/vesting/internal/types/vesting_account_test.go but not the
implementation file of the vesting account types, so the operations below
are modelled from the specification text (sections 3, 4.1 to 4.5) and
cross-checked against the behaviour pinned by the in-repository tests.
One place where the tests override the specification text: the tests show
that TrackDelegation itself debits the delegated amount from Coins and
TrackUndelegation itself credits the returned amount back to Coins
(TestTrackDelegationContVestingAcc requires GetCoins to be nil right after
TrackDelegation of the whole balance, with no separate debit by the test),
so the model includes those Coins updates.

Coins are modelled extensionally, as functions from a denomination type to
a natural number amount. The specification describes the coin library as
an abstract contract: multi-denomination non-negative integer vectors with
pointwise addition, subtraction clamped at zero per denomination, and
per-denomination comparison. Dropping zero entries and denom-sorted
iteration are representation details that vanish in the extensional view.
Times are Unix seconds, modelled as Int.
-/

namespace VestingSpec

/-- Modelled from the spec: Coins, a mapping from denomination to
non-negative integer amount (section 3), taken extensionally. -/
abbrev Coins (δ : Type) := δ → Nat

/-- Modelled from the spec: the empty coin vector. -/
def Coins.empty (δ : Type) : Coins δ := fun _ => 0

/-- Modelled from the spec: pointwise per-denomination addition. -/
def Coins.add {δ : Type} (a b : Coins δ) : Coins δ := fun d => a d + b d

/-- Modelled from the spec: per-denomination subtraction clamped at zero
(Nat subtraction is exactly the clamp at zero). -/
def Coins.sub {δ : Type} (a b : Coins δ) : Coins δ := fun d => a d - b d

/-- Modelled from the spec: a vesting period of a periodic schedule, a
pair of a length in seconds and a coin amount. -/
structure VestingPeriod (δ : Type) where
  periodLength : Int
  vestingAmount : Coins δ

/-- Modelled from the spec: the schedule variants (design note 9, the
tagged-variant representation that matches the persisted schema). -/
inductive Schedule (δ : Type) where
  | continuous (startTime : Int)
  | delayed
  | periodic (startTime : Int) (vestingPeriods : List (VestingPeriod δ))

/-- Modelled from the spec: a vesting account, the base-vesting fields
common to all variants (section 3) together with its schedule variant.
Base-account fields that the core never reads or writes (address, public
key, account number, sequence) are omitted. -/
structure VestingAccount (δ : Type) where
  coins : Coins δ
  originalVesting : Coins δ
  delegatedFree : Coins δ
  delegatedVesting : Coins δ
  endTime : Int
  schedule : Schedule δ

/-- Modelled from the spec: the walk of the periodic schedule (section
4.1), accumulating completed periods in order and stopping at the first
period whose boundary is past the elapsed time. -/
def periodicVestedWalk {δ : Type} : List (VestingPeriod δ) → Int → Coins δ
  | [], _ => Coins.empty δ
  | p :: rest, elapsed =>
      if p.periodLength ≤ elapsed then
        Coins.add p.vestingAmount (periodicVestedWalk rest (elapsed - p.periodLength))
      else
        Coins.empty δ

/-- Modelled from the spec: GetVestedCoins of a continuous account
(section 4.1): empty at or before StartTime, all of OriginalVesting at or
after EndTime, otherwise the linear ramp with division truncating toward
zero (all quantities are non-negative in that branch, so Nat division is
that truncation). -/
def continuousVested {δ : Type} (ov : Coins δ) (s e t : Int) : Coins δ :=
  if t ≤ s then Coins.empty δ
  else if e ≤ t then ov
  else fun d => ov d * (t - s).toNat / (e - s).toNat

/-- Modelled from the spec: GetVestedCoins of a delayed account (section
4.1): a cliff at EndTime. -/
def delayedVested {δ : Type} (ov : Coins δ) (e t : Int) : Coins δ :=
  if e ≤ t then ov else Coins.empty δ

/-- Modelled from the spec: GetVestedCoins of a periodic account (section
4.1): empty strictly before StartTime, all of OriginalVesting at or after
EndTime, otherwise the period walk. -/
def periodicVested {δ : Type} (ov : Coins δ) (s e : Int)
    (ps : List (VestingPeriod δ)) (t : Int) : Coins δ :=
  if t < s then Coins.empty δ
  else if e ≤ t then ov
  else periodicVestedWalk ps (t - s)

/-- Modelled from the spec: GetVestedCoins (section 4.1), dispatching on
the schedule variant. -/
def vestedCoins {δ : Type} (acc : VestingAccount δ) (t : Int) : Coins δ :=
  match acc.schedule with
  | .continuous s => continuousVested acc.originalVesting s acc.endTime t
  | .delayed => delayedVested acc.originalVesting acc.endTime t
  | .periodic s ps => periodicVested acc.originalVesting s acc.endTime ps t

/-- Modelled from the spec: GetVestingCoins (section 4.1),
OriginalVesting minus the vested portion. -/
def vestingCoins {δ : Type} (acc : VestingAccount δ) (t : Int) : Coins δ :=
  Coins.sub acc.originalVesting (vestedCoins acc t)

/-- Modelled from the spec: SpendableCoins (section 4.2), held Coins
minus the still-vesting portion, clamped at zero per denomination. -/
def spendableCoins {δ : Type} (acc : VestingAccount δ) (t : Int) : Coins δ :=
  Coins.sub acc.coins (vestingCoins acc t)

/-- Modelled from the spec: GetCoins of the base account. -/
def getCoins {δ : Type} (acc : VestingAccount δ) : Coins δ := acc.coins

/-- Modelled from the spec: SetCoins of the base account, replacing the
held balance. -/
def setCoins {δ : Type} (acc : VestingAccount δ) (c : Coins δ) : VestingAccount δ :=
  { acc with coins := c }

/-- Modelled from the spec: TrackDelegation (section 4.3). A zero amount
or an amount exceeding Coins in some denomination fails fatally, leaving
the account unchanged; failure is rendered as none. Otherwise, per
denomination, the part of the amount still covered by the not yet
attributed vesting portion goes to DelegatedVesting and the rest to
DelegatedFree; per the in-repository tests the amount is also debited
from Coins. -/
def trackDelegation {δ : Type} [Fintype δ] (acc : VestingAccount δ) (t : Int)
    (x : Coins δ) : Option (VestingAccount δ) :=
  if (∀ d, x d = 0) ∨ (∃ d, acc.coins d < x d) then none
  else
    some { acc with
      coins := Coins.sub acc.coins x
      delegatedVesting := fun d =>
        acc.delegatedVesting d + min (x d) (vestingCoins acc t d - acc.delegatedVesting d)
      delegatedFree := fun d =>
        acc.delegatedFree d + (x d - min (x d) (vestingCoins acc t d - acc.delegatedVesting d)) }

/-- Modelled from the spec: TrackUndelegation (section 4.4). A zero
amount, or an amount exceeding DelegatedFree plus DelegatedVesting in
some denomination, fails fatally, leaving the account unchanged; failure
is rendered as none. Otherwise, per denomination, coins return free
first: the minimum of the amount and DelegatedFree leaves DelegatedFree
and the remainder leaves DelegatedVesting; per the in-repository tests
the amount is also credited back to Coins. -/
def trackUndelegation {δ : Type} [Fintype δ] (acc : VestingAccount δ)
    (y : Coins δ) : Option (VestingAccount δ) :=
  if (∀ d, y d = 0) ∨ (∃ d, acc.delegatedFree d + acc.delegatedVesting d < y d) then none
  else
    some { acc with
      coins := Coins.add acc.coins y
      delegatedFree := fun d =>
        acc.delegatedFree d - min (y d) (acc.delegatedFree d)
      delegatedVesting := fun d =>
        acc.delegatedVesting d - (y d - min (y d) (acc.delegatedFree d)) }

/-- Modelled from the spec: the sum of the period lengths of a periodic
schedule. -/
def sumPeriodLengths {δ : Type} (ps : List (VestingPeriod δ)) : Int :=
  (ps.map (fun p => p.periodLength)).sum

/-- Modelled from the spec: the per-denomination sum of the period
amounts of a periodic schedule. -/
def sumPeriodAmounts {δ : Type} : List (VestingPeriod δ) → Coins δ
  | [] => Coins.empty δ
  | p :: rest => Coins.add p.vestingAmount (sumPeriodAmounts rest)

/-- Modelled from the spec: the schedule-shape conditions of Validate
(section 4.5) together with the periodic structural invariants of section
3: a continuous schedule starts before it ends; a periodic schedule has
positive period lengths, lengths summing to EndTime minus StartTime, and
amounts summing to OriginalVesting. -/
def ValidSchedule {δ : Type} (acc : VestingAccount δ) : Prop :=
  match acc.schedule with
  | .continuous s => s < acc.endTime
  | .delayed => True
  | .periodic s ps =>
      s + sumPeriodLengths ps = acc.endTime ∧
      (∀ d, sumPeriodAmounts ps d = acc.originalVesting d) ∧
      (∀ p ∈ ps, 0 < p.periodLength)

/-- An operation of the delegation-tracking state machine: a delegation
at a block time or an undelegation. -/
inductive Op (δ : Type) where
  | delegate (t : Int) (x : Coins δ)
  | undelegate (y : Coins δ)

/-- Apply one tracking operation to an account. -/
def applyOp {δ : Type} [Fintype δ] (acc : VestingAccount δ) : Op δ → Option (VestingAccount δ)
  | .delegate t x => trackDelegation acc t x
  | .undelegate y => trackUndelegation acc y

/-- Apply a sequence of tracking operations, failing if any step fails. -/
def applyOps {δ : Type} [Fintype δ] (acc : VestingAccount δ) :
    List (Op δ) → Option (VestingAccount δ)
  | [] => some acc
  | op :: ops => (applyOp acc op).bind (fun acc2 => applyOps acc2 ops)

/-- The vested amount of a periodic schedule in the words of the claim:
the sum of VestingAmount over exactly those periods whose cumulative end
time, StartTime plus the sum of the lengths up to and including the
period, is at most t. -/
def completedVested {δ : Type} : Int → List (VestingPeriod δ) → Int → Coins δ
  | _, [], _ => Coins.empty δ
  | s, p :: rest, t =>
      if s + p.periodLength ≤ t then
        Coins.add p.vestingAmount (completedVested (s + p.periodLength) rest t)
      else
        completedVested (s + p.periodLength) rest t

/-- A concrete two-denomination universe, the fee and stake denominations
of the in-repository tests, for concrete instances of the theorems. -/
inductive TD where
  | fee
  | stake
deriving DecidableEq, Fintype

/-- The original coins of the test scenarios: 1000 fee and 100 stake. -/
def origTD : Coins TD := fun d => match d with | .fee => 1000 | .stake => 100

/-- The coin vector of 50 stake. -/
def stake50 : Coins TD := fun d => match d with | .fee => 0 | .stake => 50

/-- The coin vector of 25 stake. -/
def stake25 : Coins TD := fun d => match d with | .fee => 0 | .stake => 25

/-- The continuous test account: original vesting and held coins of 1000
fee and 100 stake, schedule from time 0 to 86400 (24 hours). -/
def contAccTD : VestingAccount TD :=
  { coins := origTD
    originalVesting := origTD
    delegatedFree := Coins.empty TD
    delegatedVesting := Coins.empty TD
    endTime := 86400
    schedule := .continuous 0 }

/-- The periods of the periodic test account: 12 hours with 500 fee and
50 stake, then twice 6 hours with 250 fee and 25 stake. -/
def periodsTD : List (VestingPeriod TD) :=
  [ { periodLength := 43200
      vestingAmount := fun d => match d with | .fee => 500 | .stake => 50 },
    { periodLength := 21600
      vestingAmount := fun d => match d with | .fee => 250 | .stake => 25 },
    { periodLength := 21600
      vestingAmount := fun d => match d with | .fee => 250 | .stake => 25 } ]

/-- The periodic test account over the test periods. -/
def periAccTD : VestingAccount TD :=
  { coins := origTD
    originalVesting := origTD
    delegatedFree := Coins.empty TD
    delegatedVesting := Coins.empty TD
    endTime := 86400
    schedule := .periodic 0 periodsTD }

/-- The delegated-vesting amount of an optional account state, with a
sentinel default for the failed state. -/
def dvOf (s : Option (VestingAccount TD)) (d : TD) : Nat :=
  (s.map (fun a => a.delegatedVesting d)).getD 424242

/-- The delegated-free amount of an optional account state, with a
sentinel default for the failed state. -/
def dfOf (s : Option (VestingAccount TD)) (d : TD) : Nat :=
  (s.map (fun a => a.delegatedFree d)).getD 424242

/-- The held-coins amount of an optional account state, with a sentinel
default for the failed state. -/
def heldOf (s : Option (VestingAccount TD)) (d : TD) : Nat :=
  (s.map (fun a => a.coins d)).getD 424242

/-- The state of the continuous test account after delegating 50 stake
twice at the half-way time 43200. -/
def c2afterDel : Option (VestingAccount TD) :=
  (trackDelegation contAccTD 43200 stake50).bind
    (fun a => trackDelegation a 43200 stake50)

/-- The state after further undelegating 25 stake (a delegation of 50
returned after a 50 percent slash). -/
def c2afterUnd1 : Option (VestingAccount TD) :=
  c2afterDel.bind (fun a => trackUndelegation a stake25)

/-- The state after further undelegating the unslashed 50 stake. -/
def c2afterUnd2 : Option (VestingAccount TD) :=
  c2afterUnd1.bind (fun a => trackUndelegation a stake50)

/-- The explicit successor state of delegating the whole balance of the
continuous test account at time 0. -/
def delAllAtZero : VestingAccount TD :=
  { contAccTD with
    coins := Coins.sub contAccTD.coins origTD
    delegatedVesting := fun d =>
      contAccTD.delegatedVesting d +
        min (origTD d) (vestingCoins contAccTD 0 d - contAccTD.delegatedVesting d)
    delegatedFree := fun d =>
      contAccTD.delegatedFree d +
        (origTD d - min (origTD d) (vestingCoins contAccTD 0 d - contAccTD.delegatedVesting d)) }

/-- A continuous test state holding outstanding delegations of 50 stake
attributed to each of the free and vesting portions. -/
def undW : VestingAccount TD :=
  { contAccTD with delegatedVesting := stake50, delegatedFree := stake50 }

/-- The explicit successor state of undelegating 25 stake from undW. -/
def undWPost : VestingAccount TD :=
  { undW with
    coins := Coins.add undW.coins stake25
    delegatedFree := fun d => undW.delegatedFree d - min (stake25 d) (undW.delegatedFree d)
    delegatedVesting := fun d =>
      undW.delegatedVesting d - (stake25 d - min (stake25 d) (undW.delegatedFree d)) }

/-- A continuous test state with an outstanding free-attributed
delegation of 50 stake and no vesting-attributed delegation. -/
def rtAcc : VestingAccount TD :=
  { contAccTD with delegatedFree := stake50 }

/-- The round trip of delegating and then undelegating 50 stake on rtAcc
at time 0. -/
def rtChain : Option (VestingAccount TD) :=
  (trackDelegation rtAcc 0 stake50).bind (fun a => trackUndelegation a stake50)

/-- The explicit successor state of delegating 50 stake to the fresh
continuous test account at time 0. -/
def rtMid : VestingAccount TD :=
  { contAccTD with
    coins := Coins.sub contAccTD.coins stake50
    delegatedVesting := fun d =>
      contAccTD.delegatedVesting d +
        min (stake50 d) (vestingCoins contAccTD 0 d - contAccTD.delegatedVesting d)
    delegatedFree := fun d =>
      contAccTD.delegatedFree d +
        (stake50 d - min (stake50 d) (vestingCoins contAccTD 0 d - contAccTD.delegatedVesting d)) }

/-- The explicit successor state of undelegating the same 50 stake from
rtMid. -/
def rtPost : VestingAccount TD :=
  { rtMid with
    coins := Coins.add rtMid.coins stake50
    delegatedFree := fun d => rtMid.delegatedFree d - min (stake50 d) (rtMid.delegatedFree d)
    delegatedVesting := fun d =>
      rtMid.delegatedVesting d - (stake50 d - min (stake50 d) (rtMid.delegatedFree d)) }

/-- The state of delAllAtZero after receiving 50 stake. -/
def recvAfter : VestingAccount TD :=
  setCoins delAllAtZero (Coins.add (getCoins delAllAtZero) stake50)

/-- A delegation request of 1000000 stake, exceeding the held balance of
the test account. -/
def overX : Coins TD := fun d => match d with | .fee => 0 | .stake => 1000000

/-- Inversion of a successful TrackDelegation: every field of the
successor state. -/
theorem trackDelegation_some {δ : Type} [Fintype δ] {acc acc' : VestingAccount δ}
    {t : Int} {x : Coins δ} (h : trackDelegation acc t x = some acc') :
    acc'.coins = Coins.sub acc.coins x ∧
    acc'.originalVesting = acc.originalVesting ∧
    acc'.delegatedVesting = (fun d =>
      acc.delegatedVesting d + min (x d) (vestingCoins acc t d - acc.delegatedVesting d)) ∧
    acc'.delegatedFree = (fun d =>
      acc.delegatedFree d + (x d - min (x d) (vestingCoins acc t d - acc.delegatedVesting d))) ∧
    acc'.endTime = acc.endTime ∧
    acc'.schedule = acc.schedule := by
  unfold trackDelegation at h
  split at h
  · exact absurd h (by simp)
  · injection h with h
    subst h
    exact ⟨rfl, rfl, rfl, rfl, rfl, rfl⟩

/-- Inversion of a successful TrackUndelegation: every field of the
successor state. -/
theorem trackUndelegation_some {δ : Type} [Fintype δ] {acc acc' : VestingAccount δ}
    {y : Coins δ} (h : trackUndelegation acc y = some acc') :
    acc'.coins = Coins.add acc.coins y ∧
    acc'.originalVesting = acc.originalVesting ∧
    acc'.delegatedVesting = (fun d =>
      acc.delegatedVesting d - (y d - min (y d) (acc.delegatedFree d))) ∧
    acc'.delegatedFree = (fun d => acc.delegatedFree d - min (y d) (acc.delegatedFree d)) ∧
    acc'.endTime = acc.endTime ∧
    acc'.schedule = acc.schedule := by
  unfold trackUndelegation at h
  split at h
  · exact absurd h (by simp)
  · injection h with h
    subst h
    exact ⟨rfl, rfl, rfl, rfl, rfl, rfl⟩

/-- GetVestedCoins of an account with a continuous schedule. -/
theorem vestedCoins_continuous {δ : Type} {acc : VestingAccount δ} {s : Int}
    (hs : acc.schedule = Schedule.continuous s) (t : Int) :
    vestedCoins acc t = continuousVested acc.originalVesting s acc.endTime t := by
  unfold vestedCoins
  rw [hs]

/-- GetVestedCoins of an account with a delayed schedule. -/
theorem vestedCoins_delayed {δ : Type} {acc : VestingAccount δ}
    (hs : acc.schedule = Schedule.delayed) (t : Int) :
    vestedCoins acc t = delayedVested acc.originalVesting acc.endTime t := by
  unfold vestedCoins
  rw [hs]

/-- GetVestedCoins of an account with a periodic schedule. -/
theorem vestedCoins_periodic {δ : Type} {acc : VestingAccount δ} {s : Int}
    {ps : List (VestingPeriod δ)} (hs : acc.schedule = Schedule.periodic s ps) (t : Int) :
    vestedCoins acc t = periodicVested acc.originalVesting s acc.endTime ps t := by
  unfold vestedCoins
  rw [hs]

/-- The middle branch of the continuous ramp never exceeds the original
vesting amount. -/
theorem ramp_le {δ : Type} (ov : Coins δ) {s e : Int} (t : Int) (hst : s < t) (hte : t < e)
    (d : δ) : ov d * (t - s).toNat / (e - s).toNat ≤ ov d := by
  have ha : (t - s).toNat ≤ (e - s).toNat := by omega
  have hb : 0 < (e - s).toNat := by omega
  calc ov d * (t - s).toNat / (e - s).toNat
      ≤ ov d * (e - s).toNat / (e - s).toNat :=
        Nat.div_le_div_right (Nat.mul_le_mul_left _ ha)
    _ = ov d := Nat.mul_div_cancel _ hb

/-- The continuous vested amount never exceeds the original vesting
amount. -/
theorem continuousVested_le {δ : Type} (ov : Coins δ) (s e t : Int) (d : δ) :
    continuousVested ov s e t d ≤ ov d := by
  unfold continuousVested
  by_cases h1 : t ≤ s
  · rw [if_pos h1]
    exact Nat.zero_le _
  · rw [if_neg h1]
    by_cases h2 : e ≤ t
    · rw [if_pos h2]
    · rw [if_neg h2]
      exact ramp_le ov t (by omega) (by omega) d

/-- The continuous vested amount is monotone in time. -/
theorem continuousVested_mono {δ : Type} (ov : Coins δ) (s e t1 t2 : Int) (h12 : t1 ≤ t2)
    (d : δ) : continuousVested ov s e t1 d ≤ continuousVested ov s e t2 d := by
  unfold continuousVested
  by_cases h1 : t1 ≤ s
  · rw [if_pos h1]
    exact Nat.zero_le _
  · rw [if_neg h1, if_neg (show ¬ t2 ≤ s by omega)]
    by_cases h2 : e ≤ t1
    · rw [if_pos h2, if_pos (show e ≤ t2 by omega)]
    · rw [if_neg h2]
      by_cases h3 : e ≤ t2
      · rw [if_pos h3]
        exact ramp_le ov t1 (by omega) (by omega) d
      · rw [if_neg h3]
        exact Nat.div_le_div_right (Nat.mul_le_mul_left _ (by omega))

/-- For a well-formed continuous schedule, everything is vested at or
after the end time. -/
theorem continuousVested_at_end {δ : Type} (ov : Coins δ) {s e : Int} (t : Int)
    (hval : s < e) (h : e ≤ t) : continuousVested ov s e t = ov := by
  unfold continuousVested
  rw [if_neg (by omega), if_pos h]

/-- The delayed vested amount never exceeds the original vesting
amount. -/
theorem delayedVested_le {δ : Type} (ov : Coins δ) (e t : Int) (d : δ) :
    delayedVested ov e t d ≤ ov d := by
  unfold delayedVested
  by_cases h : e ≤ t
  · rw [if_pos h]
  · rw [if_neg h]
    exact Nat.zero_le _

/-- The delayed vested amount is monotone in time. -/
theorem delayedVested_mono {δ : Type} (ov : Coins δ) (e t1 t2 : Int) (h12 : t1 ≤ t2) (d : δ) :
    delayedVested ov e t1 d ≤ delayedVested ov e t2 d := by
  unfold delayedVested
  by_cases h : e ≤ t1
  · rw [if_pos h, if_pos (by omega)]
  · rw [if_neg h]
    exact Nat.zero_le _

/-- Everything is vested at or after the end time of a delayed
schedule. -/
theorem delayedVested_at_end {δ : Type} (ov : Coins δ) {e : Int} (t : Int) (h : e ≤ t) :
    delayedVested ov e t = ov := by
  unfold delayedVested
  rw [if_pos h]

/-- The period walk is bounded by the sum of all period amounts. -/
theorem periodicVestedWalk_le_sum {δ : Type} (ps : List (VestingPeriod δ)) (e : Int) (d : δ) :
    periodicVestedWalk ps e d ≤ sumPeriodAmounts ps d := by
  induction ps generalizing e with
  | nil => exact le_refl _
  | cons p rest ih =>
      unfold periodicVestedWalk sumPeriodAmounts
      by_cases h : p.periodLength ≤ e
      · rw [if_pos h]
        exact Nat.add_le_add_left (ih _) _
      · rw [if_neg h]
        exact Nat.zero_le _

/-- The period walk is monotone in the elapsed time. -/
theorem periodicVestedWalk_mono {δ : Type} (ps : List (VestingPeriod δ)) (e1 e2 : Int)
    (h12 : e1 ≤ e2) (d : δ) : periodicVestedWalk ps e1 d ≤ periodicVestedWalk ps e2 d := by
  induction ps generalizing e1 e2 with
  | nil => exact le_refl _
  | cons p rest ih =>
      unfold periodicVestedWalk
      by_cases h : p.periodLength ≤ e1
      · rw [if_pos h, if_pos (by omega)]
        exact Nat.add_le_add_left (ih _ _ (by omega)) _
      · rw [if_neg h]
        exact Nat.zero_le _

/-- Unfolding of the period-length sum over a cons. -/
theorem sumPeriodLengths_cons {δ : Type} (p : VestingPeriod δ) (rest : List (VestingPeriod δ)) :
    sumPeriodLengths (p :: rest) = p.periodLength + sumPeriodLengths rest := by
  unfold sumPeriodLengths
  simp

/-- A list of positive period lengths has a non-negative sum. -/
theorem sumPeriodLengths_nonneg {δ : Type} (ps : List (VestingPeriod δ))
    (hpos : ∀ p ∈ ps, 0 < p.periodLength) : 0 ≤ sumPeriodLengths ps := by
  induction ps with
  | nil => simp [sumPeriodLengths]
  | cons p rest ih =>
      have h1 := hpos p (List.mem_cons_self p rest)
      have h2 := ih (fun q hq => hpos q (List.mem_cons_of_mem p hq))
      rw [sumPeriodLengths_cons]
      omega

/-- The periodic vested amount never exceeds the original vesting amount
when the period amounts sum to it. -/
theorem periodicVested_le {δ : Type} (ov : Coins δ) (s e : Int) (ps : List (VestingPeriod δ))
    (hsum : ∀ d, sumPeriodAmounts ps d = ov d) (t : Int) (d : δ) :
    periodicVested ov s e ps t d ≤ ov d := by
  unfold periodicVested
  by_cases h1 : t < s
  · rw [if_pos h1]
    exact Nat.zero_le _
  · rw [if_neg h1]
    by_cases h2 : e ≤ t
    · rw [if_pos h2]
    · rw [if_neg h2]
      calc periodicVestedWalk ps (t - s) d ≤ sumPeriodAmounts ps d :=
            periodicVestedWalk_le_sum ps (t - s) d
        _ = ov d := hsum d

/-- The periodic vested amount is monotone in time when the period
amounts sum to the original vesting amount. -/
theorem periodicVested_mono {δ : Type} (ov : Coins δ) (s e : Int) (ps : List (VestingPeriod δ))
    (hsum : ∀ d, sumPeriodAmounts ps d = ov d) (t1 t2 : Int) (h12 : t1 ≤ t2) (d : δ) :
    periodicVested ov s e ps t1 d ≤ periodicVested ov s e ps t2 d := by
  unfold periodicVested
  by_cases h1 : t1 < s
  · rw [if_pos h1]
    exact Nat.zero_le _
  · rw [if_neg h1, if_neg (show ¬ t2 < s by omega)]
    by_cases h2 : e ≤ t1
    · rw [if_pos h2, if_pos (by omega)]
    · rw [if_neg h2]
      by_cases h3 : e ≤ t2
      · rw [if_pos h3]
        calc periodicVestedWalk ps (t1 - s) d ≤ sumPeriodAmounts ps d :=
              periodicVestedWalk_le_sum ps (t1 - s) d
          _ = ov d := hsum d
      · rw [if_neg h3]
        exact periodicVestedWalk_mono ps _ _ (by omega) d

/-- For a well-formed periodic schedule, everything is vested at or after
the end time. -/
theorem periodicVested_at_end {δ : Type} (ov : Coins δ) {s e : Int} (t : Int)
    (ps : List (VestingPeriod δ)) (hlen : s + sumPeriodLengths ps = e)
    (hpos : ∀ p ∈ ps, 0 < p.periodLength) (h : e ≤ t) :
    periodicVested ov s e ps t = ov := by
  have hnn := sumPeriodLengths_nonneg ps hpos
  unfold periodicVested
  rw [if_neg (by omega), if_pos h]

/-- The vested amount of any valid account never exceeds the original
vesting amount, per denomination. -/
theorem vestedCoins_le_ov {δ : Type} (acc : VestingAccount δ) (hval : ValidSchedule acc)
    (t : Int) (d : δ) : vestedCoins acc t d ≤ acc.originalVesting d := by
  unfold ValidSchedule at hval
  cases hsched : acc.schedule with
  | continuous s =>
      rw [vestedCoins_continuous hsched]
      exact continuousVested_le _ _ _ _ _
  | delayed =>
      rw [vestedCoins_delayed hsched]
      exact delayedVested_le _ _ _ _
  | periodic s ps =>
      rw [vestedCoins_periodic hsched]
      rw [hsched] at hval
      exact periodicVested_le _ _ _ _ hval.2.1 _ _

/-- The vested amount of any valid account is monotone in time, per
denomination. -/
theorem vestedCoins_mono {δ : Type} (acc : VestingAccount δ) (hval : ValidSchedule acc)
    (t1 t2 : Int) (h12 : t1 ≤ t2) (d : δ) : vestedCoins acc t1 d ≤ vestedCoins acc t2 d := by
  unfold ValidSchedule at hval
  cases hsched : acc.schedule with
  | continuous s =>
      rw [vestedCoins_continuous hsched, vestedCoins_continuous hsched]
      exact continuousVested_mono _ _ _ _ _ h12 _
  | delayed =>
      rw [vestedCoins_delayed hsched, vestedCoins_delayed hsched]
      exact delayedVested_mono _ _ _ _ h12 _
  | periodic s ps =>
      rw [vestedCoins_periodic hsched, vestedCoins_periodic hsched]
      rw [hsched] at hval
      exact periodicVested_mono _ _ _ _ hval.2.1 _ _ h12 _

/-- Everything is vested at or after the end time of any valid
account. -/
theorem vestedCoins_at_end {δ : Type} (acc : VestingAccount δ) (hval : ValidSchedule acc)
    (t : Int) (h : acc.endTime ≤ t) : vestedCoins acc t = acc.originalVesting := by
  unfold ValidSchedule at hval
  cases hsched : acc.schedule with
  | continuous s =>
      rw [vestedCoins_continuous hsched]
      rw [hsched] at hval
      exact continuousVested_at_end _ _ hval h
  | delayed =>
      rw [vestedCoins_delayed hsched]
      exact delayedVested_at_end _ _ h
  | periodic s ps =>
      rw [vestedCoins_periodic hsched]
      rw [hsched] at hval
      exact periodicVested_at_end _ _ _ hval.1 hval.2.2 h

/-- The claim-shaped sum is empty when even the first boundary is past
the query time. -/
theorem completedVested_of_lt {δ : Type} (ps : List (VestingPeriod δ)) (t : Int) (d : δ) :
    ∀ s : Int, (∀ p ∈ ps, 0 < p.periodLength) → t < s → completedVested s ps t d = 0 := by
  induction ps with
  | nil => intro s _ _; rfl
  | cons p rest ih =>
      intro s hpos h
      unfold completedVested
      rw [if_neg (by have := hpos p (List.mem_cons_self p rest); omega)]
      exact ih (s + p.periodLength) (fun q hq => hpos q (List.mem_cons_of_mem p hq))
        (by have := hpos p (List.mem_cons_self p rest); omega)

/-- The claim-shaped sum covers every period once the query time reaches
the sum of the lengths. -/
theorem completedVested_all {δ : Type} (ps : List (VestingPeriod δ)) (t : Int) (d : δ) :
    ∀ s : Int, (∀ p ∈ ps, 0 < p.periodLength) → s + sumPeriodLengths ps ≤ t →
      completedVested s ps t d = sumPeriodAmounts ps d := by
  induction ps with
  | nil => intro s _ _; rfl
  | cons p rest ih =>
      intro s hpos h
      rw [sumPeriodLengths_cons] at h
      have hrest : 0 ≤ sumPeriodLengths rest :=
        sumPeriodLengths_nonneg rest (fun q hq => hpos q (List.mem_cons_of_mem p hq))
      unfold completedVested sumPeriodAmounts
      rw [if_pos (by omega)]
      simp only [Coins.add]
      rw [ih (s + p.periodLength) (fun q hq => hpos q (List.mem_cons_of_mem p hq)) (by omega)]

/-- The period walk with the break at the first incomplete period agrees
with the claim-shaped sum over all complete periods, for positive period
lengths. -/
theorem periodicVestedWalk_eq_completed {δ : Type} (ps : List (VestingPeriod δ)) (t : Int)
    (d : δ) : ∀ s : Int, (∀ p ∈ ps, 0 < p.periodLength) →
      periodicVestedWalk ps (t - s) d = completedVested s ps t d := by
  induction ps with
  | nil => intro s _; rfl
  | cons p rest ih =>
      intro s hpos
      unfold periodicVestedWalk completedVested
      by_cases h1 : s + p.periodLength ≤ t
      · rw [if_pos (show p.periodLength ≤ t - s by omega), if_pos h1]
        have harg : t - s - p.periodLength = t - (s + p.periodLength) := by omega
        rw [harg]
        simp only [Coins.add]
        rw [ih (s + p.periodLength) (fun q hq => hpos q (List.mem_cons_of_mem p hq))]
      · rw [if_neg (show ¬ p.periodLength ≤ t - s by omega), if_neg h1]
        rw [completedVested_of_lt rest t d (s + p.periodLength)
          (fun q hq => hpos q (List.mem_cons_of_mem p hq)) (by omega)]
        rfl

/-- The continuous test account has a valid schedule. -/
theorem validSchedule_contAccTD : ValidSchedule contAccTD := by
  show (0 : Int) < (86400 : Int)
  decide

/-- The periodic test account has a valid schedule. -/
theorem validSchedule_periAccTD : ValidSchedule periAccTD := by
  refine ⟨by decide, by decide, by decide⟩

/-- Claim C4: for every valid vesting account and time t, SpendableCoins
is Coins minus the vesting portion clamped at zero per denomination, is
never above Coins, and equals Coins at or after the end time. -/
theorem spendableCoins_characterization {δ : Type} (acc : VestingAccount δ)
    (hval : ValidSchedule acc) (t : Int) :
    (∀ d, (spendableCoins acc t d : Int) =
      max ((acc.coins d : Int) - (vestingCoins acc t d : Int)) 0) ∧
    (∀ d, spendableCoins acc t d ≤ acc.coins d) ∧
    (acc.endTime ≤ t → ∀ d, spendableCoins acc t d = acc.coins d) := by
  refine ⟨fun d => ?_, fun d => ?_, fun hend d => ?_⟩
  · simp only [spendableCoins, Coins.sub]
    omega
  · simp only [spendableCoins, Coins.sub]
    omega
  · have hv : vestingCoins acc t d = 0 := by
      simp only [vestingCoins, Coins.sub]
      rw [vestedCoins_at_end acc hval t hend]
      omega
    simp only [spendableCoins, Coins.sub, vestingCoins] at hv ⊢
    omega

/-- Witness for C4 at the continuous test account. -/
theorem spendableCoins_characterization_witness :
    spendableCoins contAccTD 43200 TD.stake ≤ contAccTD.coins TD.stake ∧
    spendableCoins contAccTD 86400 TD.fee = contAccTD.coins TD.fee := by
  have h1 := spendableCoins_characterization contAccTD validSchedule_contAccTD 43200
  have h2 := spendableCoins_characterization contAccTD validSchedule_contAccTD 86400
  exact ⟨h1.2.1 TD.stake, h2.2.2 (by decide) TD.fee⟩

/-- Claim C5: for a continuous vesting account, the vested amount is
empty at or before the start time, all of OriginalVesting at or after
the end time, the truncating linear ramp strictly in between, and the
vesting amount is OriginalVesting minus the vested amount. -/
theorem continuous_vestedCoins_characterization {δ : Type} (acc : VestingAccount δ) (s : Int)
    (hsched : acc.schedule = Schedule.continuous s) (hval : s < acc.endTime) (t : Int) :
    (t ≤ s → ∀ d, vestedCoins acc t d = 0) ∧
    (acc.endTime ≤ t → ∀ d, vestedCoins acc t d = acc.originalVesting d) ∧
    (s < t → t < acc.endTime → ∀ d,
      vestedCoins acc t d = acc.originalVesting d * (t - s).toNat / (acc.endTime - s).toNat) ∧
    (∀ d, vestingCoins acc t d = acc.originalVesting d - vestedCoins acc t d) := by
  refine ⟨fun h d => ?_, fun h d => ?_, fun h1 h2 d => ?_, fun d => ?_⟩
  · rw [vestedCoins_continuous hsched]
    unfold continuousVested
    rw [if_pos h]
    rfl
  · rw [vestedCoins_continuous hsched, continuousVested_at_end _ t hval h]
  · rw [vestedCoins_continuous hsched]
    unfold continuousVested
    rw [if_neg (by omega), if_neg (by omega)]
  · simp only [vestingCoins, Coins.sub]

/-- Witness for C5 at the continuous test account, half way through the
schedule. -/
theorem continuous_vestedCoins_characterization_witness :
    (vestedCoins contAccTD 43200 TD.fee =
      contAccTD.originalVesting TD.fee * ((43200 : Int) - 0).toNat /
        (contAccTD.endTime - 0).toNat) ∧
    vestedCoins contAccTD 0 TD.stake = 0 := by
  have h1 := continuous_vestedCoins_characterization contAccTD 0 rfl (by decide) 43200
  have h0 := continuous_vestedCoins_characterization contAccTD 0 rfl (by decide) 0
  exact ⟨h1.2.2.1 (by decide) (by decide) TD.fee, h0.1 (by decide) TD.stake⟩

/-- Claim C6: for a valid periodic vesting account, the vested amount at
any time is the sum of the amounts of exactly those periods whose
cumulative end time is at or before that time; at the boundary instant a
period counts as vested. Concretely, over the test periods, nothing is
vested at 6 hours, half at 12 and 15 hours, and three quarters at 18
hours. -/
theorem periodic_vestedCoins_characterization :
    (∀ (δ : Type) (acc : VestingAccount δ) (s : Int) (ps : List (VestingPeriod δ)),
      acc.schedule = Schedule.periodic s ps → ValidSchedule acc →
        ∀ t d, vestedCoins acc t d = completedVested s ps t d) ∧
    ((∀ d, vestedCoins periAccTD 21600 d = 0) ∧
      vestedCoins periAccTD 43200 TD.fee = 500 ∧ vestedCoins periAccTD 43200 TD.stake = 50 ∧
      vestedCoins periAccTD 54000 TD.fee = 500 ∧ vestedCoins periAccTD 54000 TD.stake = 50 ∧
      vestedCoins periAccTD 64800 TD.fee = 750 ∧ vestedCoins periAccTD 64800 TD.stake = 75) := by
  constructor
  · intro δ acc s ps hsched hval t d
    unfold ValidSchedule at hval
    rw [hsched] at hval
    obtain ⟨hlen, hsum, hpos⟩ := hval
    rw [vestedCoins_periodic hsched]
    unfold periodicVested
    by_cases h1 : t < s
    · rw [if_pos h1, completedVested_of_lt ps t d s hpos h1]
      rfl
    · rw [if_neg h1]
      by_cases h2 : acc.endTime ≤ t
      · rw [if_pos h2, completedVested_all ps t d s hpos (by omega)]
        exact (hsum d).symm
      · rw [if_neg h2]
        exact periodicVestedWalk_eq_completed ps t d s hpos
  · exact ⟨by decide, by decide, by decide, by decide, by decide, by decide, by decide⟩

/-- Witness for C6 at the periodic test account, in the middle of the
second period. -/
theorem periodic_vestedCoins_characterization_witness :
    vestedCoins periAccTD 54000 TD.fee = completedVested 0 periodsTD 54000 TD.fee :=
  periodic_vestedCoins_characterization.1 TD periAccTD 0 periodsTD rfl
    validSchedule_periAccTD 54000 TD.fee

/-- Claim C7: for every valid vesting account, the vested and vesting
amounts partition OriginalVesting at every time, the vested amount is
monotone non-decreasing in time, and the vesting amount is monotone
non-increasing, per denomination. -/
theorem vested_vesting_partition_monotone {δ : Type} (acc : VestingAccount δ)
    (hval : ValidSchedule acc) :
    (∀ t d, vestedCoins acc t d + vestingCoins acc t d = acc.originalVesting d) ∧
    (∀ t1 t2, t1 ≤ t2 → ∀ d, vestedCoins acc t1 d ≤ vestedCoins acc t2 d) ∧
    (∀ t1 t2, t1 ≤ t2 → ∀ d, vestingCoins acc t2 d ≤ vestingCoins acc t1 d) := by
  refine ⟨fun t d => ?_, fun t1 t2 h d => vestedCoins_mono acc hval t1 t2 h d,
    fun t1 t2 h d => ?_⟩
  · have hle := vestedCoins_le_ov acc hval t d
    simp only [vestingCoins, Coins.sub]
    omega
  · have hmono := vestedCoins_mono acc hval t1 t2 h d
    simp only [vestingCoins, Coins.sub]
    omega

/-- Witness for C7 at the periodic test account. -/
theorem vested_vesting_partition_monotone_witness :
    (vestedCoins periAccTD 43200 TD.fee + vestingCoins periAccTD 43200 TD.fee =
      periAccTD.originalVesting TD.fee) ∧
    vestedCoins periAccTD 21600 TD.stake ≤ vestedCoins periAccTD 64800 TD.stake := by
  have h := vested_vesting_partition_monotone periAccTD validSchedule_periAccTD
  exact ⟨h.1 43200 TD.fee, h.2.1 21600 64800 (by decide) TD.stake⟩

/-- A single successful tracking operation preserves the
per-denomination bound of DelegatedVesting by OriginalVesting. -/
theorem applyOp_dv_le_ov {δ : Type} [Fintype δ] {acc acc' : VestingAccount δ} {op : Op δ}
    (h : applyOp acc op = some acc')
    (hinv : ∀ d, acc.delegatedVesting d ≤ acc.originalVesting d) :
    ∀ d, acc'.delegatedVesting d ≤ acc'.originalVesting d := by
  cases op with
  | delegate t x =>
      obtain ⟨-, hov, hdv, -, -, -⟩ := trackDelegation_some h
      intro d
      rw [hov, hdv]
      have h1 : vestingCoins acc t d ≤ acc.originalVesting d := by
        simp only [vestingCoins, Coins.sub]
        omega
      have h2 := hinv d
      show acc.delegatedVesting d +
        min (x d) (vestingCoins acc t d - acc.delegatedVesting d) ≤ acc.originalVesting d
      omega
  | undelegate y =>
      obtain ⟨-, hov, hdv, -, -, -⟩ := trackUndelegation_some h
      intro d
      rw [hov, hdv]
      have h2 := hinv d
      show acc.delegatedVesting d -
        (y d - min (y d) (acc.delegatedFree d)) ≤ acc.originalVesting d
      omega

/-- Claim C1: for every vesting account in which DelegatedVesting is at
most OriginalVesting per denomination, after any sequence of successful
TrackDelegation and TrackUndelegation calls DelegatedVesting remains at
most OriginalVesting per denomination. -/
theorem dv_le_originalVesting_invariant {δ : Type} [Fintype δ] (ops : List (Op δ))
    (acc acc' : VestingAccount δ)
    (hinv : ∀ d, acc.delegatedVesting d ≤ acc.originalVesting d)
    (h : applyOps acc ops = some acc') :
    ∀ d, acc'.delegatedVesting d ≤ acc'.originalVesting d := by
  induction ops generalizing acc with
  | nil =>
      unfold applyOps at h
      injection h with h
      subst h
      exact hinv
  | cons op rest ih =>
      unfold applyOps at h
      cases hop : applyOp acc op with
      | none =>
          rw [hop] at h
          simp at h
      | some mid =>
          rw [hop] at h
          exact ih mid (applyOp_dv_le_ov hop hinv) h

/-- Witness for C1: delegating the whole balance of the continuous test
account at time 0. -/
theorem dv_le_originalVesting_invariant_witness :
    delAllAtZero.delegatedVesting TD.stake ≤ delAllAtZero.originalVesting TD.stake := by
  have hstep : trackDelegation contAccTD 0 origTD = some delAllAtZero := by
    unfold trackDelegation
    rw [if_neg (by decide)]
    rfl
  exact dv_le_originalVesting_invariant [Op.delegate 0 origTD] contAccTD delAllAtZero
    (by decide) (by simp [applyOps, applyOp, hstep]) TD.stake

/-- Claim C2: TrackUndelegation returns coins free first, per
denomination subtracting the minimum of the amount and DelegatedFree from
DelegatedFree and the remainder from DelegatedVesting; and the concrete
slashing scenario of the tests: after delegating 50 stake twice at half
time, undelegating 25 stake leaves DelegatedFree at 25 and
DelegatedVesting at 50, and undelegating a further 50 stake leaves
DelegatedFree empty and DelegatedVesting at 25. -/
theorem trackUndelegation_free_first :
    (∀ (δ : Type) [Fintype δ] (acc acc' : VestingAccount δ) (y : Coins δ),
      trackUndelegation acc y = some acc' →
        ∀ d, acc'.delegatedFree d = acc.delegatedFree d - min (y d) (acc.delegatedFree d) ∧
          acc'.delegatedVesting d =
            acc.delegatedVesting d - (y d - min (y d) (acc.delegatedFree d))) ∧
    (dfOf c2afterUnd1 TD.stake = 25 ∧ dfOf c2afterUnd1 TD.fee = 0 ∧
      dvOf c2afterUnd1 TD.stake = 50 ∧ dvOf c2afterUnd1 TD.fee = 0 ∧
      (∀ d, dfOf c2afterUnd2 d = 0) ∧ dvOf c2afterUnd2 TD.stake = 25 ∧
      dvOf c2afterUnd2 TD.fee = 0) := by
  constructor
  · intro δ _ acc acc' y h d
    obtain ⟨-, -, hdv, hdf, -, -⟩ := trackUndelegation_some h
    rw [hdv, hdf]
    exact ⟨rfl, rfl⟩
  · exact ⟨by decide, by decide, by decide, by decide, by decide, by decide, by decide⟩

/-- Witness for C2: undelegating 25 stake from a state with 50 stake
delegated free and 50 delegated vesting. -/
theorem trackUndelegation_free_first_witness :
    undWPost.delegatedFree TD.stake =
      undW.delegatedFree TD.stake - min (stake25 TD.stake) (undW.delegatedFree TD.stake) := by
  have hstep : trackUndelegation undW stake25 = some undWPost := by
    unfold trackUndelegation
    rw [if_neg (by decide)]
    rfl
  exact (trackUndelegation_free_first.1 TD undW undWPost stake25 hstep TD.stake).1

/-- Counterexample to claim C3: TrackDelegation does change the Coins
field, debiting the delegated amount, as the in-repository tests require
(GetCoins is nil right after delegating the whole balance, with no
separate debit by the host). -/
theorem trackDelegation_mutates_coins_cex :
    trackDelegation contAccTD 0 origTD = some delAllAtZero ∧
    delAllAtZero.coins TD.stake = 0 ∧ contAccTD.coins TD.stake = 100 := by
  refine ⟨?_, by decide, by decide⟩
  unfold trackDelegation
  rw [if_neg (by decide)]
  rfl

/-- Claim C3 amended: the tracking operations mutate only
DelegatedVesting, DelegatedFree and Coins; TrackDelegation debits the
amount from Coins, TrackUndelegation credits it back, and the remaining
fields are unchanged. -/
theorem track_ops_frame_amended :
    (∀ (δ : Type) [Fintype δ] (acc acc' : VestingAccount δ) (t : Int) (x : Coins δ),
      trackDelegation acc t x = some acc' →
        acc'.coins = Coins.sub acc.coins x ∧ acc'.originalVesting = acc.originalVesting ∧
        acc'.endTime = acc.endTime ∧ acc'.schedule = acc.schedule) ∧
    (∀ (δ : Type) [Fintype δ] (acc acc' : VestingAccount δ) (y : Coins δ),
      trackUndelegation acc y = some acc' →
        acc'.coins = Coins.add acc.coins y ∧ acc'.originalVesting = acc.originalVesting ∧
        acc'.endTime = acc.endTime ∧ acc'.schedule = acc.schedule) := by
  constructor
  · intro δ _ acc acc' t x h
    obtain ⟨hc, hov, -, -, he, hs⟩ := trackDelegation_some h
    exact ⟨hc, hov, he, hs⟩
  · intro δ _ acc acc' y h
    obtain ⟨hc, hov, -, -, he, hs⟩ := trackUndelegation_some h
    exact ⟨hc, hov, he, hs⟩

/-- Witness for the amended C3 at the continuous test account. -/
theorem track_ops_frame_amended_witness :
    delAllAtZero.coins = Coins.sub contAccTD.coins origTD ∧
    delAllAtZero.schedule = contAccTD.schedule := by
  have hstep : trackDelegation contAccTD 0 origTD = some delAllAtZero := by
    unfold trackDelegation
    rw [if_neg (by decide)]
    rfl
  have h := track_ops_frame_amended.1 TD contAccTD delAllAtZero 0 origTD hstep
  exact ⟨h.1, h.2.2.2⟩

/-- Counterexample to claim C8: starting from a state with an
outstanding free-attributed delegation of 50 stake and none attributed to
vesting, delegating 50 stake at time 0 and undelegating the same 50
leaves DelegatedVesting at 50 and DelegatedFree at 0, not the prior 0
and 50. -/
theorem roundTrip_not_restoring_cex :
    rtChain.isSome = true ∧
    dvOf rtChain TD.stake = 50 ∧ rtAcc.delegatedVesting TD.stake = 0 ∧
    dfOf rtChain TD.stake = 0 ∧ rtAcc.delegatedFree TD.stake = 50 := by
  exact ⟨by decide, by decide, by decide, by decide, by decide⟩

/-- Claim C8 amended: the delegate-undelegate round trip of the same
amount restores DelegatedVesting and DelegatedFree provided that, for
every denomination of the amount, either no delegated-free balance was
outstanding or the delegation is attributed entirely to the free
portion. -/
theorem roundTrip_restores_amended {δ : Type} [Fintype δ]
    (acc mid post : VestingAccount δ) (t : Int) (x : Coins δ)
    (hfree : ∀ d, x d ≠ 0 →
      acc.delegatedFree d = 0 ∨
        min (x d) (vestingCoins acc t d - acc.delegatedVesting d) = 0)
    (h1 : trackDelegation acc t x = some mid)
    (h2 : trackUndelegation mid x = some post) :
    post.delegatedVesting = acc.delegatedVesting ∧
    post.delegatedFree = acc.delegatedFree := by
  obtain ⟨-, -, hdv1, hdf1, -, -⟩ := trackDelegation_some h1
  obtain ⟨-, -, hdv2, hdf2, -, -⟩ := trackUndelegation_some h2
  constructor
  · funext d
    rw [hdv2]
    simp only [hdv1, hdf1]
    by_cases hd : x d = 0
    · omega
    · rcases hfree d hd with h0 | h0 <;> omega
  · funext d
    rw [hdf2]
    simp only [hdv1, hdf1]
    by_cases hd : x d = 0
    · omega
    · rcases hfree d hd with h0 | h0 <;> omega

/-- Witness for the amended C8: a round trip of 50 stake on the fresh
continuous test account at time 0. -/
theorem roundTrip_restores_amended_witness :
    rtPost.delegatedVesting = contAccTD.delegatedVesting ∧
    rtPost.delegatedFree = contAccTD.delegatedFree := by
  have h1 : trackDelegation contAccTD 0 stake50 = some rtMid := by
    unfold trackDelegation
    rw [if_neg (by decide)]
    rfl
  have h2 : trackUndelegation rtMid stake50 = some rtPost := by
    unfold trackUndelegation
    rw [if_neg (by decide)]
    rfl
  exact roundTrip_restores_amended contAccTD rtMid rtPost 0 stake50 (by decide) h1 h2

/-- Claim C9: TrackDelegation with an amount exceeding Coins in some
denomination fails fatally, and TrackUndelegation with a zero amount
fails fatally; in the embedding failure is rendered as none, so no
successor state is produced and the account value is exactly as before
the call. -/
theorem track_failures_fatal :
    (∀ (δ : Type) [Fintype δ] (acc : VestingAccount δ) (t : Int) (x : Coins δ),
      (∃ d, acc.coins d < x d) → trackDelegation acc t x = none) ∧
    (∀ (δ : Type) [Fintype δ] (acc : VestingAccount δ) (y : Coins δ),
      (∀ d, y d = 0) → trackUndelegation acc y = none) := by
  constructor
  · intro δ _ acc t x h
    unfold trackDelegation
    rw [if_pos (Or.inr h)]
  · intro δ _ acc y h
    unfold trackUndelegation
    rw [if_pos (Or.inl h)]

/-- Witness for C9: a delegation of 1000000 stake against a balance of
100, and an undelegation of the zero amount. -/
theorem track_failures_fatal_witness :
    trackDelegation contAccTD 86400 overX = none ∧
    trackUndelegation contAccTD (Coins.empty TD) = none := by
  constructor
  · exact track_failures_fatal.1 TD contAccTD 86400 overX ⟨TD.stake, by decide⟩
  · exact track_failures_fatal.2 TD contAccTD (Coins.empty TD) (fun d => rfl)

/-- Counterexample to claim C10: after delegating the whole balance of
the continuous test account at time 0 the vesting portion exceeds the
held coins, and receiving 50 stake leaves SpendableCoins at zero instead
of increasing it by 50. -/
theorem receive_spendable_increase_cex :
    spendableCoins delAllAtZero 0 TD.stake = 0 ∧
    spendableCoins recvAfter 0 TD.stake = 0 ∧
    stake50 TD.stake = 50 ∧
    spendableCoins recvAfter 0 TD.stake ≠
      spendableCoins delAllAtZero 0 TD.stake + stake50 TD.stake := by
  exact ⟨by decide, by decide, by decide, by decide⟩

/-- Claim C10 amended: receiving r increases SpendableCoins by exactly r
in every denomination, provided the held Coins cover the vesting portion
in every denomination, so that the clamp at zero is not engaged. -/
theorem receive_increases_spendable_amended {δ : Type} (acc : VestingAccount δ) (t : Int)
    (r : Coins δ) (hcover : ∀ d, vestingCoins acc t d ≤ acc.coins d) :
    ∀ d, spendableCoins (setCoins acc (Coins.add acc.coins r)) t d =
      spendableCoins acc t d + r d := by
  intro d
  have hc := hcover d
  show Coins.sub (Coins.add acc.coins r) (vestingCoins acc t) d =
    Coins.sub acc.coins (vestingCoins acc t) d + r d
  simp only [Coins.sub, Coins.add]
  omega

/-- Witness for the amended C10: the continuous test account half way
through the schedule receiving 50 stake. -/
theorem receive_increases_spendable_amended_witness :
    spendableCoins (setCoins contAccTD (Coins.add contAccTD.coins stake50)) 43200 TD.stake =
      spendableCoins contAccTD 43200 TD.stake + stake50 TD.stake :=
  receive_increases_spendable_amended contAccTD 43200 stake50 (by decide) TD.stake

end VestingSpec
